import Mathlib

/-!
Verification of the statistical-selection pipeline in `Tarefa_Brou.py`.

The pipeline's selection loops (all-subsets search, forward/backward/stepwise
selection) consume only the information-criterion values (`.aic`, `.bic`,
`.rsquared`) of the fitted models, so the fit is embedded as an abstract
function from an ordered regressor list to those values; the control flow of
the loops is translated line by line from the source.  The Box-Cox decision,
the positivity shift, and the final ordinary/HAC refits are embedded from
their formulas.  Machine floats are modelled as exact rationals.
-/

/-- Factor names (the pandas column labels used by the script). -/
abbrev Var := String

/-- The strict-improvement threshold `1e-8` used by the stepwise loops
(lines 183, 200, 220, 235 of the source). -/
def epsSel : ℚ := 1 / 100000000

/-- The positivity margin `1e-6` used before Box-Cox (line 129). -/
def epsShift : ℚ := 1 / 1000000

/-- The information-criterion values of one OLS fit, as consumed by the
selection loops: `m.aic`, `m.bic`, `m.rsquared`.  The selection code reads
nothing else from a fitted model, so the fit is abstracted to this record. -/
structure FitIC where
  aic : ℚ
  bic : ℚ
  r2 : ℚ
deriving DecidableEq

/-- One row of `results_subset` (lines 160-166): the subset, its size and its
criterion values. -/
structure SubsetResult where
  vars : List Var
  k : ℕ
  aic : ℚ
  bic : ℚ
  r2 : ℚ
deriving DecidableEq

/-- `itertools.combinations l k` in emission order: combinations that use the
head of the list come first, each in the original relative order. -/
def combos : ℕ → List Var → List (List Var)
  | 0, _ => [[]]
  | _ + 1, [] => []
  | k + 1, x :: xs => ((combos k xs).map (fun s => x :: s)) ++ combos (k + 1) xs

/-- Lines 155-166: for `k in range(1, len(factors)+1)`, for each
`subset in combinations(factors, k)`, fit and record `vars, k, AIC, BIC, R2`. -/
def results_subset (fit : List Var → FitIC) (factors : List Var) : List SubsetResult :=
  (List.range factors.length).flatMap (fun i =>
    (combos (i + 1) factors).map (fun s =>
      { vars := s, k := i + 1, aic := (fit s).aic, bic := (fit s).bic, r2 := (fit s).r2 }))

/-- Strict lexicographic (AIC, BIC) comparison used to model the stable
ascending sort `sort_values(["AIC","BIC"])` (line 167). -/
def icLt (a b : SubsetResult) : Bool :=
  decide (a.aic < b.aic) || (decide (a.aic = b.aic) && decide (a.bic < b.bic))

/-- Stable ascending insertion of `x` into a sorted list: `x` passes over `y`
only when `y` is strictly smaller, so earlier elements stay first on ties. -/
def insertAsc {α : Type} (lt : α → α → Bool) (x : α) : List α → List α
  | [] => [x]
  | y :: ys => if lt y x then y :: insertAsc lt x ys else x :: y :: ys

/-- Stable ascending insertion sort (models a stable `sort_values`). -/
def sortAsc {α : Type} (lt : α → α → Bool) : List α → List α
  | [] => []
  | x :: xs => insertAsc lt x (sortAsc lt xs)

/-- Line 167: `res_df = DataFrame(results_subset).sort_values(["AIC","BIC"]).reset_index(drop=True)`.
After `reset_index(drop=True)` the row at position `i` carries index label `i`,
so the frame is modelled as a list of (label, row) pairs. -/
def res_df (fit : List Var → FitIC) (factors : List Var) : List (ℕ × SubsetResult) :=
  (sortAsc icLt (results_subset fit factors)).enum

/-- Strict BIC comparison for the re-sort on line 170. -/
def bicLt (a b : ℕ × SubsetResult) : Bool := decide (a.2.bic < b.2.bic)

/-- `frame.loc[lbl, "vars"]`: label-based row lookup (pandas `.loc`), returning
the `vars` field of the row whose index label is `lbl`.  The labels of a
reindexed frame are unchanged by a later sort, so `.loc` ignores row order.
An absent label (only possible for an empty factor universe, where the script
would raise) is modelled by the junk value `[]`. -/
def loc_vars (rows : List (ℕ × SubsetResult)) (lbl : ℕ) : List Var :=
  ((rows.find? (fun r => r.1 == lbl)).map (fun r => r.2.vars)).getD []

/-- Line 169: `best_aic_vars = list(res_df.loc[0, "vars"])`. -/
def best_aic_vars (fit : List Var → FitIC) (factors : List Var) : List Var :=
  loc_vars (res_df fit factors) 0

/-- Line 170: `best_bic_vars = list(res_df.sort_values("BIC").loc[0, "vars"])`.
Note the lookup is `.loc` (label-based), applied after a sort that keeps the
labels of the already reindexed `res_df`. -/
def best_bic_vars (fit : List Var → FitIC) (factors : List Var) : List Var :=
  loc_vars (sortAsc bicLt (res_df fit factors)) 0

/-- Line 242: `final_vars = best_bic_vars if len(best_bic_vars)>0 else factors`. -/
def final_vars (fit : List Var → FitIC) (factors : List Var) : List Var :=
  if best_bic_vars fit factors ≠ [] then best_bic_vars fit factors else factors

/-- Python `min(candidates, key=lambda x: x[0])` over a nonempty list
`x :: xs`: the first element attaining the minimal first component. -/
def minByFst (x : ℚ × Var) (xs : List (ℚ × Var)) : ℚ × Var :=
  xs.foldl (fun best c => if c.1 < best.1 then c else best) x

/-- `best_aic < current_aic - 1e-8` where `current_aic` may be the initial
`np.inf` (modelled by `none`): any finite value improves on infinity. -/
def improves (a : ℚ) : Option ℚ → Bool
  | none => true
  | some c => decide (a < c - epsSel)

/-- Lines 176-188, the forward-selection loop body: while `remaining` is
nonempty, fit `selected + [v]` for every remaining `v`, take the first
minimum by AIC, and add it only when it improves `current_aic` by more than
`1e-8`; otherwise break.  Each pass consumes one variable, so fuel
`factors.length + 1` is never exhausted. -/
def fwdLoop (aic : List Var → ℚ) : ℕ → List Var → List Var → Option ℚ → List Var
  | 0, sel, _, _ => sel
  | fuel + 1, sel, rem, cur =>
    match rem with
    | [] => sel
    | v :: vs =>
      let best := minByFst (aic (sel ++ [v]), v) (vs.map (fun w => (aic (sel ++ [w]), w)))
      if improves best.1 cur then
        fwdLoop aic fuel (sel ++ [best.2]) ((v :: vs).erase best.2) (some best.1)
      else sel

/-- Lines 172-188: `selected_fwd`, starting from the empty selection with
`current_aic = np.inf`. -/
def selected_fwd (aic : List Var → ℚ) (factors : List Var) : List Var :=
  fwdLoop aic (factors.length + 1) [] factors none

/-- Lines 190-203, the backward-elimination loop: fit the current selection,
fit every one-variable deletion, and remove the best deletion when it beats
the full fit by more than `1e-8`; otherwise stop with the current selection.
`none` models the uncaught `ValueError` that Python `min` raises on the empty
candidate list reached when the selection has become empty. -/
def bwdLoop (aic : List Var → ℚ) : ℕ → List Var → Option (List Var)
  | 0, _ => none
  | fuel + 1, sel =>
    match sel with
    | [] => none
    | v :: vs =>
      let aic_full := aic (v :: vs)
      let best := minByFst (aic ((v :: vs).filter (fun u => u != v)), v)
        (vs.map (fun w => (aic ((v :: vs).filter (fun u => u != w)), w)))
      if best.1 < aic_full - epsSel then bwdLoop aic fuel ((v :: vs).erase best.2)
      else some (v :: vs)

/-- Lines 190-203: `selected_bwd`, starting from the full factor list. -/
def selected_bwd (aic : List Var → ℚ) (factors : List Var) : Option (List Var) :=
  bwdLoop aic (factors.length + 1) factors

/-- Line 129: `shift = 1e-6 - min_y if min_y <= 0 else 0.0`. -/
def shift (min_y : ℚ) : ℚ := if min_y ≤ 0 then epsShift - min_y else 0

/-- Lines 132-146: the response used by every later fit.  `bc` is the outcome
of `scipy.stats.boxcox` on the shifted response: `none` when it raised
`ValueError` (caught on line 136, e.g. a constant series), otherwise the
transformed series and the optimal lambda.  The transform is adopted only
when `abs(lambda - 1.0) > 0.10` (line 141). -/
def y_for_fit (y0 : List ℚ) (bc : Option (List ℚ × ℚ)) : List ℚ :=
  match bc with
  | some (ybc, lam) => if 1 / 10 < |lam - 1| then ybc else y0
  | none => y0

/-- A concrete criterion assignment with the AIC-best and BIC-best subsets
distinct (the AIC-best subset is the pair, the BIC-best is the first
singleton), as arises whenever BIC's heavier penalty reverses AIC's
preference for the larger subset. -/
def fitC : List Var → FitIC := fun s =>
  if s = ["A"] then { aic := 10, bic := 16, r2 := 0 }
  else if s = ["B"] then { aic := 12, bic := 18, r2 := 0 }
  else { aic := 9, bic := 17, r2 := 0 }

/-- A trivial criterion assignment (any value works where only the presence
of rows matters). -/
def fit0 : List Var → FitIC := fun _ => { aic := 0, bic := 0, r2 := 0 }

/-- A concrete AIC assignment for the forward-selection witness: the first
singleton is best, and the pair is worse than it. -/
def aicFwdEx : List Var → ℚ := fun l => if l = ["A"] then 1 else if l = ["B"] then 2 else 3

/-- A concrete AIC assignment under which the intercept-only model (the empty
regressor list) beats the single factor by more than `1e-8`. -/
def aicBwdEx : List Var → ℚ := fun l => if l = [] then 0 else 1

/-- Modelled from the spec: the Gram matrix of the design, `X'X`.  The OLS
engine itself is the external statsmodels library (not repository code); its
fit is modelled from spec section 4.2 on the full-column-rank case. -/
def gram {n p : ℕ} (X : Matrix (Fin n) (Fin p) ℚ) : Matrix (Fin p) (Fin p) ℚ :=
  X.transpose * X

/-- Modelled from the spec: the inverse of the Gram matrix, written with the
adjugate so that it is a total (and executable) function; it equals the true
inverse whenever the Gram determinant is nonzero. -/
def gramInv {n p : ℕ} (X : Matrix (Fin n) (Fin p) ℚ) : Matrix (Fin p) (Fin p) ℚ :=
  ((gram X).det)⁻¹ • (gram X).adjugate

/-- Modelled from the spec: the least-squares coefficients
`(X'X)⁻¹ X'y` (spec section 4.1; statsmodels computes them from the design
and response only — the covariance mode is not an input). -/
def olsParams {n p : ℕ} (X : Matrix (Fin n) (Fin p) ℚ) (y : Fin n → ℚ) : Fin p → ℚ :=
  (gramInv X).mulVec (X.transpose.mulVec y)

/-- Fitted values `X β`. -/
def olsFitted {n p : ℕ} (X : Matrix (Fin n) (Fin p) ℚ) (y : Fin n → ℚ) : Fin n → ℚ :=
  X.mulVec (olsParams X y)

/-- Residuals `y − X β`. -/
def olsResid {n p : ℕ} (X : Matrix (Fin n) (Fin p) ℚ) (y : Fin n → ℚ) : Fin n → ℚ :=
  fun i => y i - olsFitted X y i

/-- Residual sum of squares. -/
def olsRss {n p : ℕ} (X : Matrix (Fin n) (Fin p) ℚ) (y : Fin n → ℚ) : ℚ :=
  ∑ i, (olsResid X y i) ^ 2

/-- Centered total sum of squares of the response. -/
def olsTss {n : ℕ} (y : Fin n → ℚ) : ℚ :=
  ∑ i, (y i - (∑ j, y j) / n) ^ 2

/-- `R² = 1 − RSS/TSS` (spec section 4.2). -/
def olsR2 {n p : ℕ} (X : Matrix (Fin n) (Fin p) ℚ) (y : Fin n → ℚ) : ℚ :=
  1 - olsRss X y / olsTss y

/-- Ordinary coefficient covariance `σ² (X'X)⁻¹` with `σ² = RSS/(n−p)`
(spec section 4.2). -/
def covOrdinary {n p : ℕ} (X : Matrix (Fin n) (Fin p) ℚ) (y : Fin n → ℚ) :
    Matrix (Fin p) (Fin p) ℚ :=
  (olsRss X y / ((n : ℚ) - (p : ℚ))) • gramInv X

/-- Bartlett weight `w_l = 1 − l/(L+1)` (spec section 4.2). -/
def bartlett (L l : ℕ) : ℚ := 1 - (l : ℚ) / ((L : ℚ) + 1)

/-- Outer product of two coordinate vectors. -/
def outerProd {p : ℕ} (u w : Fin p → ℚ) : Matrix (Fin p) (Fin p) ℚ :=
  fun i j => u i * w j

/-- Modelled from the spec (section 4.2): the Newey-West long-run covariance
`Ω = (1/n) Σ_t u_t² x_t x_t' + Σ_{l=1}^{L} w_l Σ_{t>l} (u_t u_{t-l})
(x_t x_{t-l}' + x_{t-l} x_t')`. -/
def hacOmega {n p : ℕ} (X : Matrix (Fin n) (Fin p) ℚ) (u : Fin n → ℚ) (L : ℕ) :
    Matrix (Fin p) (Fin p) ℚ :=
  ((n : ℚ))⁻¹ • (∑ t : Fin n, ((u t) ^ 2) • outerProd (fun j => X t j) (fun j => X t j)) +
  ∑ l ∈ Finset.range L,
    (bartlett L (l + 1)) •
      (∑ t : Fin n,
        if l + 1 ≤ (t : ℕ) then
          (u t * u ⟨(t : ℕ) - (l + 1), Nat.lt_of_le_of_lt (Nat.sub_le _ _) t.isLt⟩) •
            (outerProd (fun j => X t j)
                (fun j => X ⟨(t : ℕ) - (l + 1), Nat.lt_of_le_of_lt (Nat.sub_le _ _) t.isLt⟩ j) +
             outerProd
                (fun j => X ⟨(t : ℕ) - (l + 1), Nat.lt_of_le_of_lt (Nat.sub_le _ _) t.isLt⟩ j)
                (fun j => X t j))
        else 0)

/-- Modelled from the spec (section 4.2): the sandwich covariance
`n (X'X)⁻¹ Ω (X'X)⁻¹ / n` with the residuals of the same least-squares fit. -/
def covHAC {n p : ℕ} (X : Matrix (Fin n) (Fin p) ℚ) (y : Fin n → ℚ) (L : ℕ) :
    Matrix (Fin p) (Fin p) ℚ :=
  ((n : ℚ))⁻¹ • ((n : ℚ) • (gramInv X * hacOmega X (olsResid X y) L * gramInv X))

/-- The fields of a statsmodels regression-results object that the script
reads: coefficients, fitted values, residuals, RSS, R² and the coefficient
covariance. -/
structure OLSFitResult (n p : ℕ) where
  params : Fin p → ℚ
  fittedvalues : Fin n → ℚ
  resid : Fin n → ℚ
  ssr : ℚ
  rsquared : ℚ
  cov_params : Matrix (Fin p) (Fin p) ℚ

/-- Line 244: `model_final_ols = OLS(y_for_fit, X_final).fit()` — ordinary
covariance.  Modelled from the spec: every field but the covariance is a
function of the design and response alone. -/
def model_final_ols {n p : ℕ} (X : Matrix (Fin n) (Fin p) ℚ) (y : Fin n → ℚ) :
    OLSFitResult n p :=
  { params := olsParams X y, fittedvalues := olsFitted X y, resid := olsResid X y,
    ssr := olsRss X y, rsquared := olsR2 X y, cov_params := covOrdinary X y }

/-- Line 270: `model_final_hac = OLS(y_for_fit, X_final).fit(cov_type="HAC",
cov_kwds={"maxlags":6})`.  Modelled from the spec: the covariance mode enters
only the covariance estimator — statsmodels computes the coefficients,
residuals, fitted values, RSS and R² from the design and response exactly as
in the ordinary fit, and then attaches the Newey-West covariance. -/
def model_final_hac {n p : ℕ} (X : Matrix (Fin n) (Fin p) ℚ) (y : Fin n → ℚ) :
    OLSFitResult n p :=
  { params := olsParams X y, fittedvalues := olsFitted X y, resid := olsResid X y,
    ssr := olsRss X y, rsquared := olsR2 X y, cov_params := covHAC X y 6 }

/-- `AIC = n ln(RSS/n) + 2(p+1)` (spec section 4.2), a function of the sample
size, the residual sum of squares and the parameter count only. -/
noncomputable def aicOf (n : ℕ) (rssv : ℚ) (p : ℕ) : ℝ :=
  n * Real.log ((rssv : ℝ) / n) + 2 * (p + 1)

/-- `BIC = n ln(RSS/n) + (p+1) ln n` (spec section 4.2). -/
noncomputable def bicOf (n : ℕ) (rssv : ℚ) (p : ℕ) : ℝ :=
  n * Real.log ((rssv : ℝ) / n) + (p + 1) * Real.log n

/-- One step of the first-minimum fold. -/
theorem minByFst_cons (x c : ℚ × Var) (cs : List (ℚ × Var)) :
    minByFst x (c :: cs) = minByFst (if c.1 < x.1 then c else x) cs := rfl

/-- The first minimum is one of the candidates. -/
theorem minByFst_mem (xs : List (ℚ × Var)) : ∀ x, minByFst x xs ∈ x :: xs := by
  induction xs with
  | nil => intro x; simp [minByFst]
  | cons c cs ih =>
    intro x
    rw [minByFst_cons]
    by_cases hc : c.1 < x.1
    · rw [if_pos hc]
      exact List.mem_cons_of_mem x (ih c)
    · rw [if_neg hc]
      rcases List.mem_cons.mp (ih x) with h1 | h1
      · rw [h1]; exact List.mem_cons_self x _
      · exact List.mem_cons_of_mem x (List.mem_cons_of_mem c h1)

/-- The first minimum has the smallest key among the candidates. -/
theorem minByFst_le (xs : List (ℚ × Var)) : ∀ x, ∀ c ∈ x :: xs, (minByFst x xs).1 ≤ c.1 := by
  induction xs with
  | nil =>
    intro x c hc
    rcases List.mem_cons.mp hc with h | h
    · rw [h]; exact le_refl _
    · simp at h
  | cons d ds ih =>
    intro x c hc
    rw [minByFst_cons]
    by_cases hd : d.1 < x.1
    · rw [if_pos hd]
      rcases List.mem_cons.mp hc with h | h
      · rw [h]
        exact le_trans (ih d d (List.mem_cons_self d ds)) (le_of_lt hd)
      · exact ih d c h
    · rw [if_neg hd]
      rcases List.mem_cons.mp hc with h | h
      · exact h ▸ ih x x (List.mem_cons_self x ds)
      · rcases List.mem_cons.mp h with h2 | h2
        · rw [h2]
          exact le_trans (ih x x (List.mem_cons_self x ds)) (le_of_not_lt hd)
        · exact ih x c (List.mem_cons_of_mem x h2)

/-- Unfolding equation for one pass of the forward-selection loop. -/
theorem fwdLoop_cons (aic : List Var → ℚ) (fuel : ℕ) (sel : List Var) (v : Var)
    (vs : List Var) (cur : Option ℚ) :
    fwdLoop aic (fuel + 1) sel (v :: vs) cur =
      if improves (minByFst (aic (sel ++ [v]), v) (vs.map (fun w => (aic (sel ++ [w]), w)))).1
          cur then
        fwdLoop aic fuel
          (sel ++ [(minByFst (aic (sel ++ [v]), v) (vs.map (fun w => (aic (sel ++ [w]), w)))).2])
          ((v :: vs).erase
            (minByFst (aic (sel ++ [v]), v) (vs.map (fun w => (aic (sel ++ [w]), w)))).2)
          (some (minByFst (aic (sel ++ [v]), v) (vs.map (fun w => (aic (sel ++ [w]), w)))).1)
      else sel := rfl

/-- Invariant of the forward-selection loop: when the loop returns, no
variable it was still tracking can improve the AIC of the returned selection
by more than the threshold. -/
theorem fwdLoop_post (aic : List Var → ℚ) :
    ∀ (fuel : ℕ) (rem sel : List Var) (cur : Option ℚ),
      rem.length ≤ fuel →
      (∀ c, cur = some c → c = aic sel) →
      ∀ v, (v ∈ sel ∨ v ∈ rem) → v ∉ fwdLoop aic fuel sel rem cur →
        aic (fwdLoop aic fuel sel rem cur) - epsSel ≤ aic (fwdLoop aic fuel sel rem cur ++ [v]) := by
  intro fuel
  induction fuel with
  | zero =>
    intro rem sel cur hlen hcur v hv hnot
    have hrem : rem = [] := List.length_eq_zero.mp (Nat.le_zero.mp hlen)
    subst hrem
    rcases hv with h | h
    · exact absurd h hnot
    · simp at h
  | succ fuel ih =>
    intro rem sel cur hlen hcur v hv hnot
    cases rem with
    | nil =>
      rcases hv with h | h
      · exact absurd h hnot
      · simp at h
    | cons v0 vs =>
      rw [fwdLoop_cons] at hnot ⊢
      set b := minByFst (aic (sel ++ [v0]), v0) (vs.map (fun w => (aic (sel ++ [w]), w)))
        with hb
      have hbmem : b ∈ (v0 :: vs).map (fun w => (aic (sel ++ [w]), w)) := by
        rw [List.map_cons]
        exact minByFst_mem _ _
      obtain ⟨w, hwmem, hweq⟩ := List.mem_map.mp hbmem
      by_cases himp : improves b.1 cur = true
      · rw [if_pos himp] at hnot ⊢
        apply ih
        · have h1 : ((v0 :: vs).erase b.2).length = (v0 :: vs).length - 1 :=
            List.length_erase_of_mem (by rw [← hweq]; exact hwmem)
          simp only [List.length_cons] at hlen h1
          omega
        · intro c hc
          have hc2 : c = b.1 := by injection hc with h; exact h.symm
          rw [hc2, ← hweq]
        · rcases hv with h | h
          · exact Or.inl (List.mem_append_left _ h)
          · by_cases hvb : v = b.2
            · exact Or.inl (List.mem_append_right _ (by rw [hvb]; exact List.mem_singleton.mpr rfl))
            · exact Or.inr ((List.mem_erase_of_ne hvb).mpr h)
        · exact hnot
      · rw [if_neg himp] at hnot ⊢
        cases cur with
        | none => exact absurd rfl himp
        | some c =>
          have hc : c = aic sel := hcur c rfl
          have hub : ¬ (b.1 < c - epsSel) := by
            simpa [improves] using himp
          have hvrem : v ∈ v0 :: vs := by
            rcases hv with h | h
            · exact absurd h hnot
            · exact h
          have hle : b.1 ≤ aic (sel ++ [v]) := by
            have : (aic (sel ++ [v]), v) ∈ (v0 :: vs).map (fun w => (aic (sel ++ [w]), w)) :=
              List.mem_map_of_mem _ hvrem
            rw [List.map_cons] at this
            exact minByFst_le _ _ _ this
          have := not_lt.mp hub
          rw [hc] at this
          linarith

/-- Every sublist of `l` of length `k` is emitted by `combos k l`. -/
theorem mem_combos_of_sublist {s l : List Var} (h : List.Sublist s l) :
    s ∈ combos s.length l := by
  induction h with
  | slnil => simp [combos]
  | @cons l1 l2 x _ ih =>
    cases l1 with
    | nil => exact List.mem_singleton.mpr rfl
    | cons a t => exact List.mem_append_right _ ih
  | @cons₂ l1 l2 x _ ih =>
    exact List.mem_append_left _ (List.mem_map_of_mem _ ih)

/-- Claim C1, evaluated at a failing input.  With two factors where the
(AIC,BIC)-lexicographic best subset is the pair `["A","B"]` (AIC 9) but the
BIC-minimizing subset is `["A"]` (BIC 16 versus 17), the script's final
variable set is the pair: `res_df.sort_values("BIC").loc[0]` looks up index
label 0 — the row that the earlier (AIC,BIC) sort put first — instead of the
first row of the BIC-sorted order, so `final_vars` does not minimize BIC even
though an enumerated subset with strictly smaller BIC exists. -/
theorem final_vars_is_aic_best_not_bic_min :
    final_vars fitC ["A", "B"] = ["A", "B"] ∧
    ["A"] ∈ (results_subset fitC ["A", "B"]).map (fun r => r.vars) ∧
    (fitC ["A"]).bic < (fitC (final_vars fitC ["A", "B"])).bic := by decide

/-- Claim C2, evaluated at the same failing input.  The exhaustive loop does
enumerate every non-empty subset (here all `2^2 - 1 = 3`), and the reported
best-by-AIC subset attains the minimum AIC; but the reported best-by-BIC
subset equals the AIC-best pair and not the BIC-minimizing singleton `["A"]`,
because the lookup on line 170 is label-based. -/
theorem best_bic_vars_report_bug :
    (results_subset fitC ["A", "B"]).map (fun r => r.vars) = [["A"], ["B"], ["A", "B"]] ∧
    best_aic_vars fitC ["A", "B"] = ["A", "B"] ∧
    (results_subset fitC ["A", "B"]).all
      (fun r => decide ((fitC ["A", "B"]).aic ≤ r.aic)) = true ∧
    best_bic_vars fitC ["A", "B"] = ["A", "B"] ∧
    (fitC ["A"]).bic < (fitC ["A", "B"]).bic := by decide

/-- Claim C3: on termination of forward selection, no single unused variable
(a member of the factor universe not in the returned selection) can lower the
selected model's AIC by more than `1e-8`: every one-variable extension has
AIC at least `aic(selected) - 1e-8`. -/
theorem selected_fwd_no_single_improvement (aic : List Var → ℚ) (factors : List Var)
    (v : Var) (hv : v ∈ factors) (hns : v ∉ selected_fwd aic factors) :
    aic (selected_fwd aic factors) - epsSel ≤ aic (selected_fwd aic factors ++ [v]) :=
  fwdLoop_post aic (factors.length + 1) factors [] none (Nat.le_succ _)
    (fun c hc => by cases hc) v (Or.inr hv) hns

/-- Claim C3 witness: with AIC values `["A"] = 1`, `["B"] = 2`,
`["A","B"] = 3`, forward selection returns `["A"]`, and the unused `"B"`
cannot improve it. -/
theorem selected_fwd_no_single_improvement_witness :
    aicFwdEx (selected_fwd aicFwdEx ["A", "B"]) - epsSel ≤
      aicFwdEx (selected_fwd aicFwdEx ["A", "B"] ++ ["B"]) :=
  selected_fwd_no_single_improvement aicFwdEx ["A", "B"] "B" (by decide)
    (by norm_num +decide [selected_fwd, fwdLoop, minByFst, improves, aicFwdEx, epsSel])

/-- Claim C4 counterexample: for a response minimum strictly between 0 and
the margin `1e-6` (here `5e-7`), the script applies no shift at all, whereas
`max(0, eps - min)` is the positive value `5e-7`; so the claimed shift formula
and the claimed positive shift both fail. -/
theorem shift_not_max_form_cex :
    0 < (1 / 2000000 : ℚ) ∧ (1 / 2000000 : ℚ) < epsShift ∧
    shift (1 / 2000000) = 0 ∧
    max 0 (epsShift - 1 / 2000000) = 1 / 2000000 := by
  refine ⟨by norm_num, by norm_num [epsShift], by norm_num [shift, epsShift], ?_⟩
  rw [max_eq_right (by norm_num [epsShift])]
  norm_num [epsShift]

/-- Claim C4 as amended: the one-time shift is `eps - min` when the minimum
is at most 0 (there it agrees with `max(0, eps - min)`) and 0 otherwise, and
in every case the shifted minimum is strictly positive. -/
theorem shift_spec (m : ℚ) :
    0 < m + shift m ∧ (m ≤ 0 → shift m = max 0 (epsShift - m)) ∧ (0 < m → shift m = 0) := by
  unfold shift
  by_cases h : m ≤ 0
  · rw [if_pos h]
    refine ⟨?_, fun _ => ?_, fun hpos => absurd h (not_le.mpr hpos)⟩
    · have he : m + (epsShift - m) = epsShift := by ring
      rw [he]; norm_num [epsShift]
    · have h0 : (0 : ℚ) ≤ epsShift - m := by
        have : (0 : ℚ) < epsShift := by norm_num [epsShift]
        linarith
      exact (max_eq_right h0).symm
  · rw [if_neg h]
    push_neg at h
    exact ⟨by linarith, fun hle => absurd hle (not_le.mpr h), fun _ => rfl⟩

/-- Claim C4 witness for the amended statement, at minima `-1` and `1`. -/
theorem shift_spec_witness :
    shift (-1) = max 0 (epsShift - (-1)) ∧ shift 1 = 0 :=
  ⟨(shift_spec (-1)).2.1 (by norm_num), (shift_spec 1).2.2 (by norm_num)⟩

/-- Claim C5: the response used for the later fits is the Box-Cox transform
exactly when the transform succeeded and `|lambda - 1| > 0.10`; when Box-Cox
raised (degenerate series, `bc = none`) or the lambda is within 0.10 of 1,
the original response is kept (the pipeline continues with `y0` rather than
aborting). -/
theorem y_for_fit_spec (y0 ybc : List ℚ) (lam : ℚ) :
    y_for_fit y0 none = y0 ∧
    (1 / 10 < |lam - 1| → y_for_fit y0 (some (ybc, lam)) = ybc) ∧
    (¬ 1 / 10 < |lam - 1| → y_for_fit y0 (some (ybc, lam)) = y0) ∧
    (ybc ≠ y0 → (y_for_fit y0 (some (ybc, lam)) = ybc ↔ 1 / 10 < |lam - 1|)) := by
  refine ⟨rfl, fun h => ?_, fun h => ?_, fun hne => ?_⟩
  · simp only [y_for_fit, if_pos h]
  · simp only [y_for_fit, if_neg h]
  · by_cases h : 1 / 10 < |lam - 1|
    · simp only [y_for_fit, if_pos h]
      exact ⟨fun _ => h, fun _ => trivial⟩
    · simp only [y_for_fit, if_neg h]
      exact ⟨fun heq => absurd heq.symm hne, fun hc => absurd hc h⟩

/-- Claim C5 witness: with `lambda = 2` the transform is adopted, with
`lambda = 1` the original response is kept. -/
theorem y_for_fit_spec_witness :
    y_for_fit [0] (some ([1], 2)) = [1] ∧ y_for_fit [0] (some ([1], 1)) = [0] :=
  ⟨(y_for_fit_spec [0] [1] 2).2.1 (by norm_num),
   (y_for_fit_spec [0] [1] 1).2.2.1 (by norm_num)⟩

/-- Claim C8 counterexample to the claim as stated: a duplicated factor
column makes the two-variable candidate necessarily rank-deficient, yet the
exhaustive loop still fits and records it — nothing is skipped (the loop has
no skip branch; the library fit handles rank deficiency internally). -/
theorem rank_deficient_candidate_recorded_cex :
    ["A", "A"] ∈ (results_subset fit0 ["A", "A"]).map (fun r => r.vars) := by decide

/-- Claim C8 as amended: no candidate is ever skipped and no loop aborts —
the exhaustive search records every non-empty sublist of the factor universe,
whatever criterion values the fits produce. -/
theorem results_subset_no_skip (fit : List Var → FitIC) (factors : List Var)
    (s : List Var) (hs : List.Sublist s factors) (hne : s ≠ []) :
    s ∈ (results_subset fit factors).map (fun r => r.vars) := by
  have hlen1 : 1 ≤ s.length := by
    cases s with
    | nil => exact absurd rfl hne
    | cons a t => simp
  have hlen2 : s.length ≤ factors.length := hs.length_le
  apply List.mem_map.mpr
  refine ⟨{ vars := s, k := s.length, aic := (fit s).aic, bic := (fit s).bic,
            r2 := (fit s).r2 }, ?_, rfl⟩
  apply List.mem_flatMap.mpr
  refine ⟨s.length - 1, List.mem_range.mpr (by omega), ?_⟩
  have hk : s.length - 1 + 1 = s.length := by omega
  rw [hk]
  exact List.mem_map.mpr ⟨s, mem_combos_of_sublist hs, rfl⟩

/-- Claim C8 witness for the amended statement: the subset `["B"]` of the
universe `["A","B"]` is recorded. -/
theorem results_subset_no_skip_witness :
    ["B"] ∈ (results_subset fit0 ["A", "B"]).map (fun r => r.vars) :=
  results_subset_no_skip fit0 ["A", "B"] ["B"] (by decide) (by decide)

/-- Claim C9, evaluated at a failing input.  With a single factor whose model
AIC (1) is beaten by the intercept-only AIC (0) by more than `1e-8`, the
backward loop removes the factor; on the next round `aic_drop` is empty and
Python's `min()` raises an uncaught ValueError (modelled by `none`) — the
loop does not stop at the no-improvement condition the claim describes. -/
theorem selected_bwd_empty_candidate_crash : selected_bwd aicBwdEx ["A"] = none := by
  norm_num [selected_bwd, bwdLoop, minByFst, aicBwdEx, epsSel]

/-- Claim C10: refitting the same design and response under HAC (Newey-West,
`maxlags = 6`) covariance leaves every quantity except the coefficient
covariance unchanged: coefficients, fitted values, residuals, RSS, R², and
therefore the AIC and BIC computed from the common RSS, are identical to
the ordinary-covariance fit. -/
theorem hac_refit_core_equal {n p : ℕ} (X : Matrix (Fin n) (Fin p) ℚ) (y : Fin n → ℚ) :
    (model_final_hac X y).params = (model_final_ols X y).params ∧
    (model_final_hac X y).fittedvalues = (model_final_ols X y).fittedvalues ∧
    (model_final_hac X y).resid = (model_final_ols X y).resid ∧
    (model_final_hac X y).ssr = (model_final_ols X y).ssr ∧
    (model_final_hac X y).rsquared = (model_final_ols X y).rsquared ∧
    aicOf n (model_final_hac X y).ssr p = aicOf n (model_final_ols X y).ssr p ∧
    bicOf n (model_final_hac X y).ssr p = bicOf n (model_final_ols X y).ssr p :=
  ⟨rfl, rfl, rfl, rfl, rfl, rfl, rfl⟩
